import Mathlib

/-!
Verification of the network core of the `browser` repository (an educational
web browser).  Rust strings are modelled as lists of characters (`Str`),
machine integers as `Nat` with explicit bounds, fallible code as `Except` or
`Option`.  Each definition is a shallow embedding of the corresponding Rust
item; the source file and item are named in its doc comment.
-/

/-- A Rust `String`/`&str`, modelled as its sequence of characters. -/
abbrev Str : Type := List Char

/-- Coerce a Lean string literal to the `Str` model. -/
def toStr (s : String) : Str := s.data

/-- Rust `str::split_once(c)`: split at the first occurrence of `c`,
returning the parts before and after it (`src/url/src/url.rs` uses this
throughout `Url::from_str`). -/
def splitOnce (c : Char) : Str → Option (Str × Str)
  | [] => none
  | x :: xs =>
    if x = c then some ([], xs)
    else match splitOnce c xs with
      | some (l, r) => some (x :: l, r)
      | none => none

/-- Rust `str::contains(c)`. -/
def strContains (s : Str) (c : Char) : Bool := s.contains c

/-- Decimal rendering, structural on a fuel argument so that it reduces in
the kernel.  `natDigits` below always supplies enough fuel. -/
def natDigitsAux : Nat → Nat → Str
  | 0, _ => []
  | fuel + 1, n =>
    if n < 10 then [Char.ofNat (48 + n)]
    else natDigitsAux fuel (n / 10) ++ [Char.ofNat (48 + n % 10)]

/-- Decimal digits of a natural number, most significant first
(the rendering used by Rust's `Display` for `u16`). -/
def natDigits (n : Nat) : Str := natDigitsAux (n + 1) n

/-- One step of decimal accumulation. -/
def decStep (acc : Nat) (c : Char) : Nat := acc * 10 + (c.toNat - 48)

/-- Value of a decimal digit string. -/
def decValue (s : Str) : Nat := s.foldl decStep 0

/-- Rust `u16::from_str` restricted to plain digit strings (no sign):
all characters must be decimal digits, the string nonempty, and the value
must fit in 16 bits.  (Rust also accepts a leading `+`, which never arises
in this development.) -/
def parseU16 (s : Str) : Option Nat :=
  if s ≠ [] ∧ s.all Char.isDigit = true ∧ decValue s < 65536 then
    some (decValue s)
  else
    none

/-- `src/url/src/url.rs`, `enum UrlError`.  The payload of `InvalidPort`
(Rust's `ParseIntError`) is modelled as the offending string. -/
inductive UrlError where
  | split (s : Str)
  | unknownScheme (s : Str)
  | invalidPort (s : Str)
  | invalidUrl (s : Str)
deriving DecidableEq

/-- `src/url/src/url.rs`, `enum Scheme`. -/
inductive Scheme where
  | http
  | https
  | file
  | data
  | viewSource
  | about
deriving DecidableEq

/-- `src/url/src/url.rs`, `Scheme::default_port`. -/
def Scheme.defaultPort : Scheme → Option Nat
  | .http => some 80
  | .https => some 443
  | _ => none

/-- `src/url/src/url.rs`, `impl FromStr for Scheme`. -/
def Scheme.fromStr (s : Str) : Except UrlError Scheme :=
  if s = toStr "http" then .ok .http
  else if s = toStr "https" then .ok .https
  else if s = toStr "file" then .ok .file
  else if s = toStr "data" then .ok .data
  else if s = toStr "view-source" then .ok .viewSource
  else if s = toStr "about" then .ok .about
  else .error (.unknownScheme s)

/-- `src/url/src/url.rs`, `impl Display for Scheme` (kebab-case for
`view-source`, lowercased `Debug` name otherwise). -/
def Scheme.display : Scheme → Str
  | .http => toStr "http"
  | .https => toStr "https"
  | .file => toStr "file"
  | .data => toStr "data"
  | .viewSource => toStr "view-source"
  | .about => toStr "about"

/-- `src/url/src/url.rs`, `enum AboutValue`. -/
inductive AboutValue where
  | blank
deriving DecidableEq

/-- `src/url/src/url.rs`, `impl FromStr for AboutValue`. -/
def AboutValue.fromStr (s : Str) : Except UrlError AboutValue :=
  if s = toStr "blank" then .ok .blank else .error (.invalidUrl s)

/-- `src/url/src/url.rs`, `struct WebUrl`.  `port : Nat` stands for `u16`;
`Url::from_str` only ever stores values below 2^16. -/
structure WebUrl where
  scheme : Scheme
  host : Str
  path : Str
  port : Nat
deriving DecidableEq

/-- `src/url/src/url.rs`, `WebUrl::with_path`. -/
def WebUrl.withPath (u : WebUrl) (path : Str) : WebUrl :=
  { scheme := u.scheme, host := u.host, path := path, port := u.port }

/-- `src/url/src/url.rs`, `impl Display for WebUrl`:
`"{scheme}://{host}:{port}{path}"`. -/
def WebUrl.display (u : WebUrl) : Str :=
  u.scheme.display ++ toStr "://" ++ u.host ++ [':'] ++ natDigits u.port ++ u.path

/-- `src/url/src/url.rs`, `struct FileUrl`. -/
structure FileUrl where
  scheme : Scheme
  path : Str
  host : Str
deriving DecidableEq

/-- `src/url/src/url.rs`, `struct DataUrl`. -/
structure DataUrl where
  scheme : Scheme
  mimetype : Str
  data : Str
deriving DecidableEq

/-- `src/url/src/url.rs`, `impl FromStr for DataUrl`. -/
def DataUrl.fromStr (s : Str) : Except UrlError DataUrl :=
  match splitOnce ',' s with
  | none => .error (.split s)
  | some (mimetype, d) => .ok { scheme := .data, mimetype := mimetype, data := d }

/-- `src/url/src/url.rs`, `enum Url`. -/
inductive Url where
  | web (u : WebUrl)
  | file (u : FileUrl)
  | data (u : DataUrl)
  | viewSource (u : WebUrl)
  | about (v : AboutValue)
deriving DecidableEq

/-- `src/url/src/url.rs`, `Url::as_web_url`. -/
def Url.asWebUrl : Url → Option WebUrl
  | .web u => some u
  | _ => none

/-- Rust `str::strip_prefix("//")` as used by `Url::from_str`. -/
def dropSlashes : Str → Option Str
  | '/' :: '/' :: rest => some rest
  | _ => none

/-- `src/url/src/url.rs`, `impl FromStr for Url`.  The Rust recursion (the
`view-source:` case parses the remainder) strictly shrinks the string, so it
is rendered as structural recursion on a fuel argument; `Url.fromStr` below
supplies fuel that can never run out (the `fuel = 0` branch is unreachable
because each recursive call both consumes fuel and shortens the string by at
least one character).  The two `unwrap`s of the Rust code (the split on `/`
after a slash has been ensured, and the default port for http/https) are
kept total with branches that cannot fire. -/
def Url.fromStrAux : Nat → Str → Except UrlError Url
  | 0, url => .error (.split url)
  | fuel + 1, url =>
    match splitOnce ':' url with
    | none => .error (.split url)
    | some (schemeStr, urlRest) =>
      match Scheme.fromStr schemeStr with
      | .error e => .error e
      | .ok scheme =>
        if scheme = .data then
          match DataUrl.fromStr urlRest with
          | .error e => .error e
          | .ok d => .ok (.data d)
        else if scheme = .viewSource then
          match Url.fromStrAux fuel urlRest with
          | .error e => .error e
          | .ok (.web u) => .ok (.viewSource u)
          | .ok _ => .error (.invalidUrl url)
        else if scheme = .about then
          match AboutValue.fromStr urlRest with
          | .error e => .error e
          | .ok v => .ok (.about v)
        else
          match dropSlashes urlRest with
          | none => .error (.split urlRest)
          | some u0 =>
            let u1 : Str := if strContains u0 '/' then u0 else u0 ++ ['/']
            match splitOnce '/' u1 with
            | none => .error (.split u1)
            | some (host, rest) =>
              let path : Str := '/' :: rest
              match scheme with
              | .http | .https =>
                (match splitOnce ':' host with
                | some (newHost, portStr) =>
                  match parseU16 portStr with
                  | some port => .ok (.web ⟨scheme, newHost, path, port⟩)
                  | none => .error (.invalidPort portStr)
                | none => .ok (.web ⟨scheme, host, path, scheme.defaultPort.getD 0⟩))
              | .file => .ok (.file ⟨scheme, path, host⟩)
              | _ => .error (.invalidUrl url)

/-- `src/url/src/url.rs`, `impl FromStr for Url` (entry point; see
`Url.fromStrAux`). -/
def Url.fromStr (url : Str) : Except UrlError Url :=
  Url.fromStrAux (url.length + 1) url

deriving instance DecidableEq for Except

/-- Shape facts guaranteed for every Web URL produced by `Url::from_str`:
the scheme is http or https, the host contains neither `:` nor `/`, the path
begins with `/`, and the port fits in 16 bits. -/
def WebUrl.parsedShape (u : WebUrl) : Prop :=
  (u.scheme = .http ∨ u.scheme = .https) ∧ ':' ∉ u.host ∧ '/' ∉ u.host ∧
    (∃ p, u.path = '/' :: p) ∧ u.port < 65536

/-- `src/src/headers.rs`, `enum HeadersError`. -/
inductive HeadersError where
  | notOneValue (n : Nat)
deriving DecidableEq

/-- ASCII lowercasing of one character; `str::to_lowercase` restricted to
the ASCII range, which covers every header name in this development. -/
def lowerChar (c : Char) : Char :=
  if 'A' ≤ c ∧ c ≤ 'Z' then Char.ofNat (c.toNat + 32) else c

/-- ASCII lowercasing of a string. -/
def lowerStr (s : Str) : Str := s.map lowerChar

/-- `src/src/headers.rs`, `struct Headers`: a multi-valued header map.
Rust's `HashMap<String, Vec<String>>` is modelled as an association list
with the map's unique-key discipline; `get` and `add` do not depend on
bucket order. -/
structure Headers where
  headers : List (Str × List Str)
deriving DecidableEq

/-- Association-list lookup (Rust `HashMap::get`). -/
def lookupEntry : List (Str × List Str) → Str → Option (List Str)
  | [], _ => none
  | (k, vs) :: rest, key => if k = key then some vs else lookupEntry rest key

/-- Append `values` to the entry for `key` when one exists, else insert a
new entry (the `get_mut`/`insert` branch of `Headers::add_header_values`). -/
def addToEntry : List (Str × List Str) → Str → List Str → List (Str × List Str)
  | [], key, values => [(key, values)]
  | (k, vs) :: rest, key, values =>
    if k = key then (k, vs ++ values) :: rest
    else (k, vs) :: addToEntry rest key values

/-- `src/src/headers.rs`, `Headers::add_header_values`: the key is
lowercased, empty values are filtered out, and the surviving values are
appended to the key's value list. -/
def Headers.addHeaderValues (h : Headers) (key : Str) (values : List Str) : Headers :=
  let key := lowerStr key
  let values := values.filter (fun v => !v.isEmpty)
  ⟨addToEntry h.headers key values⟩

/-- `src/src/headers.rs`, `Headers::add`. -/
def Headers.add (h : Headers) (key value : Str) : Headers :=
  h.addHeaderValues key [value]

/-- `src/src/headers.rs`, `Headers::get`: a verbatim lookup of `key`
(no lowercasing happens here). -/
def Headers.get (h : Headers) (key : Str) : Option (List Str) :=
  lookupEntry h.headers key

/-- `src/src/headers.rs`, `Headers::get_single_value`. -/
def Headers.getSingleValue (h : Headers) (key : Str) :
    Option (Except HeadersError Str) :=
  match h.get key with
  | some vs =>
    if vs.length = 1 then some (.ok (vs.headD []))
    else some (.error (.notOneValue vs.length))
  | none => none

/-- `src/src/headers.rs`, `Headers::has_given_value`. -/
def Headers.hasGivenValue (h : Headers) (key value : Str) : Option Bool :=
  (h.get key).map (fun vs => vs.any (fun v => v = value))

/-- The `StatusLine` of the HTTP client (`status_code : Nat` stands for
`u16`). -/
structure StatusLine where
  version : Str
  statusCode : Nat
  explanation : Str
deriving DecidableEq

/-- The `Response` consumed by `src/src/cache.rs` and
`src/browser/src/engine.rs`: status line, multi-valued `Headers`, optional
decoded body.  (The `request.rs` present in the tree is an older revision
whose `Response` still carries a single-valued header map; the cache and
the engine both require this `Headers`-based shape.) -/
structure Response where
  statusLine : StatusLine
  headers : Headers
  body : Option Str
deriving DecidableEq

/-- `Response::status_code`. -/
def Response.statusCode (r : Response) : Nat := r.statusLine.statusCode

/-- Rust `u64::from_str`: an optional leading `+`, then decimal digits;
the value must fit in 64 bits. -/
def parseU64 (s : Str) : Option Nat :=
  let digits := match s with
    | '+' :: rest => rest
    | _ => s
  if digits ≠ [] ∧ digits.all Char.isDigit = true ∧ decValue digits < 2 ^ 64 then
    some (decValue digits)
  else
    none

/-- Rust `str::strip_prefix` for a string pattern. -/
def dropPre : Str → Str → Option Str
  | [], s => some s
  | _ :: _, [] => none
  | p :: ps, c :: cs => if p = c then dropPre ps cs else none

/-- The largest whole-second value accepted by chrono's
`TimeDelta::from_std` (the delta is capped at `i64::MAX` milliseconds). -/
def maxTimeDeltaSeconds : Nat := 9223372036854775

/-- The `anyhow` failure cases of `parse_cache_properties`
(`src/src/cache.rs`), as distinct constructors. -/
inductive CacheError where
  | missingDate
  | dateNotOneValue (n : Nat)
  | dateUnparseable (s : Str)
  | invalidCacheControl (s : Str)
  | invalidMaxAgeInt (s : Str)
  | maxAgeOutOfRange (n : Nat)
  | noCacheControl
deriving DecidableEq

/-- `src/src/cache.rs`, `struct ResponseWithCacheProperties`: a shared
(`Arc`) response plus the parsed `date` and `max_age`.  The `Arc` is
modelled as an identifier into the cache's heap of live strong owners.
`date` (chrono `DateTime<FixedOffset>`) and `max_age` (`TimeDelta`) are
integers in seconds on one absolute timeline: chrono's comparison and
subtraction of offset-carrying timestamps compare the instants they
denote, so the offset itself plays no further role. -/
structure CacheEntry where
  respId : Nat
  date : Int
  maxAge : Int
deriving DecidableEq

/-- `src/src/cache.rs`, `struct Cache`, together with an explicit heap of
live `Arc<Response>` allocations.  In this program the map entry is the
only long-lived strong owner of a cached response
(`Engine::load_or_get_cached` clones the response out of an upgraded
handle immediately), so dropping a map entry drops its last strong
reference.  Identifiers are allocated from `nextId`, hence never reused. -/
structure CacheState where
  entries : List (WebUrl × CacheEntry)
  heap : List (Nat × Response)
  nextId : Nat
deriving DecidableEq

/-- Lookup of a live strong owner (`Weak::upgrade`'s success test). -/
def heapLookup : List (Nat × Response) → Nat → Option Response
  | [], _ => none
  | (i, r) :: rest, id => if i = id then some r else heapLookup rest id

/-- Association-list lookup for the cache map (`HashMap::get`). -/
def cacheLookup : List (WebUrl × CacheEntry) → WebUrl → Option CacheEntry
  | [], _ => none
  | (k, e) :: rest, url => if k = url then some e else cacheLookup rest url

/-- `HashMap::remove` on the cache map (first and only entry for the key). -/
def removeKey : List (WebUrl × CacheEntry) → WebUrl → List (WebUrl × CacheEntry)
  | [], _ => []
  | (k, e) :: rest, url => if k = url then rest else (k, e) :: removeKey rest url

/-- `HashMap::insert` on the cache map: replace the entry for the key, or
append a fresh one. -/
def setEntry : List (WebUrl × CacheEntry) → WebUrl → CacheEntry → List (WebUrl × CacheEntry)
  | [], url, e => [(url, e)]
  | (k, v) :: rest, url, e =>
    if k = url then (k, e) :: rest else (k, v) :: setEntry rest url e

/-- `src/src/cache.rs`, `struct MaybeCachedResponse`: an optional weak
handle, carried as the identifier of the `Arc` allocation it refers to. -/
structure MaybeCachedResponse where
  inner : Option Nat
deriving DecidableEq

/-- `MaybeCachedResponse::get` (a `Weak::upgrade`): yields shared access to
the response only while its strong owner is still in the cache's heap. -/
def MaybeCachedResponse.upgrade (m : MaybeCachedResponse) (s : CacheState) :
    Option Response :=
  m.inner.bind (heapLookup s.heap)

/-- `src/src/cache.rs`, `ResponseWithCacheProperties::parse_cache_properties`.
`parseDate` stands for chrono's `DateTime::parse_from_rfc2822`, external
library code, abstracted as a parameter returning the denoted instant. -/
def parseCacheProperties (parseDate : Str → Option Int) (response : Response) :
    Except CacheError (Int × Int) :=
  match response.headers.getSingleValue (toStr "date") with
  | none => .error .missingDate
  | some (.error (.notOneValue n)) => .error (.dateNotOneValue n)
  | some (.ok s) =>
    match parseDate s with
    | none => .error (.dateUnparseable s)
    | some date =>
      match response.headers.getSingleValue (toStr "cache-control") with
      | some (.ok cc) =>
        (match dropPre (toStr "max-age=") cc with
        | none => .error (.invalidCacheControl cc)
        | some rest =>
          match parseU64 rest with
          | none => .error (.invalidMaxAgeInt rest)
          | some n =>
            if n ≤ maxTimeDeltaSeconds then .ok (date, (n : Int))
            else .error (.maxAgeOutOfRange n))
      | _ => .error .noCacheControl

/-- `src/src/cache.rs`, `Cache::insert`: parse the cache properties; on
success wrap the response in a fresh `Arc` and insert the entry (replacing
any previous entry for the URL, whose strong owner is dropped); on failure
the map is untouched.  The Rust `&mut self` is mirrored by returning the
state next to the `Result`. -/
def Cache.insert (parseDate : Str → Option Int) (s : CacheState) (url : WebUrl)
    (response : Response) : Except CacheError Unit × CacheState :=
  match parseCacheProperties parseDate response with
  | .error e => (.error e, s)
  | .ok (date, maxAge) =>
    let cleanedHeap := match cacheLookup s.entries url with
      | some old => s.heap.filter (fun p => p.1 != old.respId)
      | none => s.heap
    (.ok (),
      { entries := setEntry s.entries url ⟨s.nextId, date, maxAge⟩,
        heap := cleanedHeap ++ [(s.nextId, response)],
        nextId := s.nextId + 1 })

/-- `src/src/cache.rs`, `Cache::get`: build a weak handle only when the
entry is present and `now − date < max_age` holds strictly; otherwise the
default handle (upgrades to nothing).  `now` stands for
`Local::now().fixed_offset()`. -/
def Cache.get (s : CacheState) (url : WebUrl) (now : Int) : MaybeCachedResponse :=
  match cacheLookup s.entries url with
  | some e => if now - e.date < e.maxAge then ⟨some e.respId⟩ else ⟨none⟩
  | none => ⟨none⟩

/-- `src/src/cache.rs`, `Cache::remove`: take the entry out of the map,
drop the map's strong `Arc` and hand back the response value
(`Arc::unwrap_or_clone`). -/
def Cache.remove (s : CacheState) (url : WebUrl) : Option Response × CacheState :=
  match cacheLookup s.entries url with
  | some e =>
    (heapLookup s.heap e.respId,
      { entries := removeKey s.entries url,
        heap := s.heap.filter (fun p => p.1 != e.respId),
        nextId := s.nextId })
  | none => (none, s)

/-- Well-formedness the cache operations maintain: every map entry's
response identifier has a live strong owner in the heap. -/
def CacheState.wf (s : CacheState) : Bool :=
  s.entries.all (fun p => (heapLookup s.heap p.2.respId).isSome)

/-- Concrete fixture: a Web URL, used by witness theorems. -/
def sampleUrl : WebUrl := ⟨.http, toStr "example.org", toStr "/", 80⟩

/-- Concrete fixture: a minimal response. -/
def sampleResponse : Response := ⟨⟨toStr "HTTP/1.1", 200, toStr "OK"⟩, ⟨[]⟩, none⟩

/-- Concrete fixture: a cache entry issued at time 0 with max-age 10. -/
def sampleEntry : CacheEntry := ⟨0, 0, 10⟩

/-- Concrete fixture: a cache holding `sampleUrl ↦ sampleEntry`. -/
def sampleCache : CacheState := ⟨[(sampleUrl, sampleEntry)], [(0, sampleResponse)], 1⟩

/-- Concrete fixture: a date parser recognizing the single timestamp
string `"d"` (stands in for rfc2822 parsing in witnesses). -/
def sampleParseDate (s : Str) : Option Int :=
  if s = toStr "d" then some 0 else none

/-- Concrete fixture: a response carrying well-formed `date` and
`cache-control: max-age=60` headers. -/
def sampleCacheableResponse : Response :=
  ⟨⟨toStr "HTTP/1.1", 200, toStr "OK"⟩,
    ⟨[(toStr "date", [toStr "d"]), (toStr "cache-control", [toStr "max-age=60"])]⟩,
    none⟩

/-- `src/browser/src/engine.rs`, `MAX_ENTITY_LEN` (26 bytes). -/
def MAX_ENTITY_LEN : Nat := 26

/-- Byte length of a string (`String::len` counts UTF-8 bytes). -/
def byteLen (g : Str) : Nat := (g.map Char.utf8Size).sum

/-- The entity table of `lex` (`src/browser/src/engine.rs:76-80`): only
`&lt;` and `&gt;` are recognized. -/
def parseEntity (e : Str) : Option Char :=
  if e = toStr "&lt;" then some '<'
  else if e = toStr "&gt;" then some '>'
  else none

/-- The inner `while let` entity scan of `lex`
(`src/browser/src/engine.rs:68-74`): starting at grapheme `i`, append
graphemes to the entity until a `;` has been consumed, the entity's byte
length is exactly `MAX_ENTITY_LEN`, or the input ends.  Returns the entity
and the new cursor.  Structural on fuel; callers pass more fuel than there
are graphemes left, so the `fuel = 0` branch never fires. -/
def entityScan (gs : List Str) : Nat → Nat → Str → Str × Nat
  | 0, i, acc => (acc, i)
  | fuel + 1, i, acc =>
    match gs.get? i with
    | none => (acc, i)
    | some g =>
      let acc' := acc ++ g
      if g = [';'] ∨ byteLen acc' = MAX_ENTITY_LEN then (acc', i + 1)
      else entityScan gs fuel (i + 1) acc'

/-- Result of running `lex`: a normal string, or `panic` for the
debug-build abort on `usize` subtraction underflow (in release builds the
index wraps past the input, the loop exits and text is silently lost). -/
inductive LexOutcome where
  | panic
  | ok (s : Str)
deriving DecidableEq

/-- `src/browser/src/engine.rs`, `fn lex`, stepped one grapheme at a time
over the precomputed grapheme list (`UnicodeSegmentation::graphemes`).
State: fuel, cursor `i`, `in_tag`, `skip_entity`, accumulated `result`.
`none` means the fuel budget ran out with the Rust loop still running.
On `&` with `skip_entity` set, the flag is reset and the grapheme falls
through to the common handling; as `"&"` matches neither `"<"` nor `">"`,
that handling reduces to the `!in_tag` push.  The unknown-entity rewind
subtracts the entity's *byte* length from the *grapheme* cursor exactly as
the Rust code does; a subtraction that would underflow is `panic`. -/
def lexAux (gs : List Str) (render : Bool) :
    Nat → Nat → Bool → Bool → Str → Option LexOutcome
  | 0, _, _, _, _ => none
  | fuel + 1, i, inTag, skipEnt, acc =>
    match gs.get? i with
    | none => some (.ok acc)
    | some g =>
      if g = ['&'] then
        if skipEnt then
          if inTag = false then lexAux gs render fuel (i + 1) inTag false (acc ++ g)
          else lexAux gs render fuel (i + 1) inTag false acc
        else
          match entityScan gs (gs.length + 1) (i + 1) ['&'] with
          | (entity, i2) =>
            match parseEntity entity with
            | some c => lexAux gs render fuel i2 inTag skipEnt (acc ++ [c])
            | none =>
              if byteLen entity > i2 then some .panic
              else lexAux gs render fuel (i2 - byteLen entity) inTag true acc
      else
        if g = ['<'] ∧ render = true then lexAux gs render fuel (i + 1) true skipEnt acc
        else if g = ['>'] ∧ render = true then lexAux gs render fuel (i + 1) false skipEnt acc
        else if inTag = false then lexAux gs render fuel (i + 1) inTag skipEnt (acc ++ g)
        else lexAux gs render fuel (i + 1) inTag skipEnt acc

/-- Fuel that covers every terminating run appearing in this development. -/
def lexFuelFor (gs : List Str) : Nat := (gs.length + (gs.map byteLen).sum + 2) * 4

/-- Run `lex` from the initial state. -/
def lexRun (gs : List Str) (render : Bool) : Option LexOutcome :=
  lexAux gs render (lexFuelFor gs) 0 false false []

/-- Unicode segmentation of pure-ASCII text: one grapheme per character. -/
def asciiGraphemes (s : String) : List Str := s.data.map (fun c => [c])

/-- The grapheme sequence of `"&é;"`: the rewind after this unknown entity
underflows the cursor. -/
def panicInput : List Str := [['&'], ['é'], [';']]

/-- The grapheme sequence of `"x&&é;"`: the rewind after the inner entity
lands before the outer `&` and the cursor cycles forever. -/
def loopInput : List Str := [['x'], ['&'], ['&'], ['é'], [';']]

/-- `src/browser/src/engine.rs`, `MAX_REDIRECTS` (5). -/
def MAX_REDIRECTS : Nat := 5

/-- `src/browser/src/engine.rs`, `enum EngineError` (without the `Load`
wrapper for transport errors, which are orthogonal to the redirect logic
modelled here; `anyhow` context attachments are dropped). -/
inductive EngineError where
  | redirect (msg : Str)
  | parseUrl (e : UrlError)
  | notWebUrl (u : Url)
deriving DecidableEq

/-- Stands for the `{:?}` debug rendering of `Headers` inside the redirect
error messages.  The claims constrain only the fixed message prefix, so any
deterministic rendering serves. -/
def headersRepr (h : Headers) : Str :=
  h.headers.foldl
    (fun acc p => acc ++ p.1 ++ [':'] ++ p.2.foldl (fun a v => a ++ v) [] ++ [';']) []

/-- Rust `str::starts_with('/')`. -/
def startsWithSlash : Str → Bool
  | '/' :: _ => true
  | _ => false

/-- The redirect loop of `load_web_url` (`src/browser/src/engine.rs`,
lines 116-148), structural on the remaining redirect budget
(`MAX_REDIRECTS − num_redirects`).  `server` stands for `Request::make`:
the response the origin returns for a URL.  Note the Rust code resolves a
relative `Location` against the loop's original `url` parameter (never
reassigned), which `origUrl` mirrors. -/
def redirectLoop (server : WebUrl → Response) (origUrl : WebUrl) :
    Nat → Response → Except EngineError Response
  | 0, response => .ok response
  | budget + 1, response =>
    if 300 ≤ response.statusCode ∧ response.statusCode < 400 then
      match response.headers.get (toStr "location") with
      | none =>
        .error (.redirect (toStr "Missing Location header in response: " ++
          headersRepr response.headers))
      | some [] =>
        .error (.redirect (toStr "Missing Location value in response headers: " ++
          headersRepr response.headers))
      | some (loc :: _) =>
        match (if startsWithSlash loc then .ok (.web (origUrl.withPath loc))
          else match Url.fromStr loc with
            | .ok u => .ok u
            | .error e => .error (.parseUrl e) : Except EngineError Url) with
        | .error e => .error e
        | .ok newUrl =>
          match newUrl.asWebUrl with
          | none => .error (.notWebUrl newUrl)
          | some webUrl => redirectLoop server origUrl budget (server webUrl)
    else .ok response

/-- `src/browser/src/engine.rs`, `fn load_web_url`: make the initial
request, follow at most `MAX_REDIRECTS` redirects, and fail with
`Redirect("Too many redirects.")` when the response after the loop still
has a 3xx status. -/
def loadWebUrl (server : WebUrl → Response) (url : WebUrl) :
    Except EngineError Response :=
  match redirectLoop server url MAX_REDIRECTS (server url) with
  | .error e => .error e
  | .ok response =>
    if 300 ≤ response.statusCode ∧ response.statusCode < 400 then
      .error (.redirect (toStr "Too many redirects."))
    else .ok response

/-- Concrete fixture: an origin that answers every URL with
`301 Moved` and `Location: /a`. -/
def redirectingServer : WebUrl → Response := fun _ =>
  ⟨⟨toStr "HTTP/1.1", 301, toStr "Moved Permanently"⟩,
    ⟨[(toStr "location", [toStr "/a"])]⟩, none⟩

/-- Concrete fixture: an origin that answers every URL with a bare `301`
carrying no headers at all. -/
def missingLocServer : WebUrl → Response := fun _ =>
  ⟨⟨toStr "HTTP/1.1", 301, toStr "Moved Permanently"⟩, ⟨[]⟩, none⟩

/-- Token stream element (spec §3: `Token := Text(string) | Tag(string)`). -/
inductive Token where
  | text (s : Str)
  | tag (s : Str)
deriving DecidableEq

/-- Modelled from the spec: the engine's four I/O-performing loaders (web
fetch with cache, file read, data payload, view-source fetch), abstracted
as parameters of `Engine::load`'s dispatch. -/
structure Loaders where
  webLoader : WebUrl → Except EngineError (Option (List Token))
  fileLoader : FileUrl → Except EngineError (Option (List Token))
  dataLoader : DataUrl → Except EngineError (Option (List Token))
  viewSourceLoader : WebUrl → Except EngineError (Option (List Token))

/-- Modelled from the spec (§4.6): the per-variant dispatch of
`Engine::load`; `About::Blank` returns a single empty `Text` token. -/
def loadUrl (L : Loaders) : Url → Except EngineError (Option (List Token))
  | .web u => L.webLoader u
  | .file u => L.fileLoader u
  | .data u => L.dataLoader u
  | .viewSource u => L.viewSourceLoader u
  | .about .blank => .ok (some [Token.text []])

/-- Modelled from the spec (§4.6, §7): `Engine::load` — "Parse the URL; on
parse failure, substitute `about:blank`" and continue degraded.  What is
missing from the tree: the `engine.rs` under `src/browser` is an older
revision whose `match url` lacks the `About` variant carried by
`src/url`'s `Url` (the two files cannot compile together) and which still
forwards the parse error; the current engine the spec describes is
modelled here on top of the real `Url::from_str`. -/
def Engine.load (L : Loaders) (urlStr : Str) :
    Except EngineError (Option (List Token)) :=
  match Url.fromStr urlStr with
  | .ok url => loadUrl L url
  | .error _ => loadUrl L (.about .blank)

/-- Concrete fixture: loaders that return an empty result for every
non-about URL. -/
def trivialLoaders : Loaders :=
  ⟨fun _ => .ok none, fun _ => .ok none, fun _ => .ok none, fun _ => .ok none⟩

/-- Hexadecimal digit test (0-9, a-f, A-F). -/
def isHexChar (c : Char) : Bool :=
  c.isDigit || (decide ('a' ≤ c) && decide (c ≤ 'f')) ||
    (decide ('A' ≤ c) && decide (c ≤ 'F'))

/-- Value of a hexadecimal digit. -/
def hexCharVal (c : Char) : Nat :=
  if c.isDigit then c.toNat - 48
  else if decide ('a' ≤ c) && decide (c ≤ 'f') then c.toNat - 87
  else c.toNat - 55

/-- Value of a hexadecimal digit string. -/
def hexValue (s : Str) : Nat := s.foldl (fun acc c => acc * 16 + hexCharVal c) 0

/-- The lowercase hexadecimal digit for `d < 16`. -/
def hexDigitChar (d : Nat) : Char := Char.ofNat (if d < 10 then 48 + d else 87 + d)

/-- Lowercase hexadecimal rendering, fuelled like `natDigitsAux`. -/
def natHexAux : Nat → Nat → Str
  | 0, _ => []
  | fuel + 1, n =>
    if n < 16 then [hexDigitChar n]
    else natHexAux fuel (n / 16) ++ [hexDigitChar (n % 16)]

/-- Lowercase hexadecimal digits of `n`, most significant first. -/
def natHex (n : Nat) : Str := natHexAux (n + 1) n

/-- Modelled from the spec (§4.4.1): one chunk-length line — hexadecimal
digits terminated by CRLF.  Returns the length and the remaining stream. -/
def parseHexLine (s : Str) : Option (Nat × Str) :=
  let digits := s.takeWhile isHexChar
  let rest := s.dropWhile isHexChar
  match digits, rest with
  | [], _ => none
  | _ :: _, '\r' :: '\n' :: rest2 => some (hexValue digits, rest2)
  | _, _ => none

/-- Modelled from the spec (§4.4.1, body policy step 1): "read chunks.
Each chunk begins with a hex length line; read that many bytes; consume
the trailing CRLF; stop when the length is zero."  Structural on fuel;
each step consumes at least one character, so the fuel `readBody` passes
cannot run out. -/
def readChunks : Nat → Str → Option Str
  | 0, _ => none
  | fuel + 1, s =>
    match parseHexLine s with
    | none => none
    | some (n, rest) =>
      if n = 0 then some []
      else if rest.length < n then none
      else
        match rest.drop n with
        | '\r' :: '\n' :: rest2 =>
          match readChunks fuel rest2 with
          | none => none
          | some tail => some (rest.take n ++ tail)
        | _ => none

/-- Modelled from the spec (§4.4.1): the HTTP client's body-read policy.
If `transfer-encoding` contains `chunked`, read chunks; else read
`content-length` bytes (0 when the header is absent).  What is missing
from the tree: the `request.rs` under `src/src` is an older octo revision
whose `Response::from_stream` reads only by `content-length` and whose
`from_str` asserts `transfer-encoding` absent, while the engine under
`src/browser` calls a four-argument `Request::new(method, host,
keep_alive, gzip)` client that is not present; the chunked decoder the
spec describes belongs to that missing client. -/
def readBody (headers : Headers) (stream : Str) : Option Str :=
  if headers.hasGivenValue (toStr "transfer-encoding") (toStr "chunked") = some true then
    readChunks (stream.length + 1) stream
  else
    let n : Nat := match headers.getSingleValue (toStr "content-length") with
      | some (.ok v) => (parseU64 v).getD 0
      | _ => 0
    some (stream.take n)

/-- A well-formed chunked stream: each chunk rendered as its hex length
line, its bytes and a trailing CRLF, terminated by a zero length line. -/
def encodeChunks : List Str → Str
  | [] => '0' :: '\r' :: '\n' :: []
  | c :: cs => natHex c.length ++ '\r' :: '\n' :: (c ++ '\r' :: '\n' :: encodeChunks cs)

/-- Concrete fixture: headers declaring both chunked transfer-encoding and
a (to-be-ignored) content-length. -/
def chunkedHeaders : Headers :=
  ⟨[(toStr "transfer-encoding", [toStr "chunked"]),
    (toStr "content-length", [toStr "5"])]⟩

/-! ## Theorems -/

theorem splitOnce_sound {c : Char} {s l r : Str} :
    splitOnce c s = some (l, r) → s = l ++ c :: r ∧ c ∉ l := by
  induction s generalizing l r with
  | nil => simp [splitOnce]
  | cons x xs ih =>
    simp only [splitOnce]
    split
    · rename_i hx
      intro h
      obtain ⟨hl, hr⟩ := Prod.mk.injEq .. ▸ (Option.some.injEq .. ▸ h)
      subst hx hl hr
      simp
    · rename_i hx
      cases hsplit : splitOnce c xs with
      | none => simp [hsplit]
      | some p =>
        obtain ⟨l', r'⟩ := p
        simp only [hsplit, Option.some.injEq, Prod.mk.injEq]
        rintro ⟨hl, hr⟩
        obtain ⟨hs, hn⟩ := ih hsplit
        subst hr
        rw [← hl]
        constructor
        · rw [hs]; rfl
        · intro hmem
          rcases List.mem_cons.mp hmem with h1 | h2
          · exact hx h1.symm
          · exact hn h2

theorem splitOnce_complete {c : Char} {l r : Str} (hl : c ∉ l) :
    splitOnce c (l ++ c :: r) = some (l, r) := by
  induction l with
  | nil => simp [splitOnce]
  | cons x xs ih =>
    have hx : x ≠ c := fun h => hl (h ▸ List.mem_cons_self x xs)
    have hxs : c ∉ xs := fun h => hl (List.mem_cons_of_mem x h)
    simp only [List.cons_append, splitOnce, if_neg (fun h => hx h), List.append_eq, ih hxs]

theorem splitOnce_length {c : Char} {s l r : Str} (h : splitOnce c s = some (l, r)) :
    r.length < s.length := by
  obtain ⟨hs, -⟩ := splitOnce_sound h
  subst hs
  simp only [List.length_append, List.length_cons]
  omega

theorem splitOnce_none {c : Char} {s : Str} (h : splitOnce c s = none) : c ∉ s := by
  induction s with
  | nil => simp
  | cons x xs ih =>
    simp only [splitOnce] at h
    split at h
    · exact absurd h (by simp)
    · rename_i hx
      intro hmem
      rcases List.mem_cons.mp hmem with h1 | h2
      · exact hx h1.symm
      · cases hsplit : splitOnce c xs with
        | none => exact ih hsplit h2
        | some p => rw [hsplit] at h; exact absurd h (by simp)

theorem digitChar_spec {d : Nat} (h : d < 10) :
    (Char.ofNat (48 + d)).isDigit = true ∧ (Char.ofNat (48 + d)).toNat - 48 = d ∧
      Char.ofNat (48 + d) ≠ ':' ∧ Char.ofNat (48 + d) ≠ '/' := by
  interval_cases d <;> exact ⟨by decide, by decide, by decide, by decide⟩

theorem decValue_append_digit (xs : Str) (c : Char) :
    decValue (xs ++ [c]) = decValue xs * 10 + (c.toNat - 48) := by
  simp [decValue, List.foldl_append, decStep]

theorem natDigitsAux_spec :
    ∀ fuel n, n < fuel →
      natDigitsAux fuel n ≠ [] ∧ (natDigitsAux fuel n).all Char.isDigit = true ∧
        decValue (natDigitsAux fuel n) = n ∧
        ':' ∉ natDigitsAux fuel n ∧ '/' ∉ natDigitsAux fuel n := by
  intro fuel
  induction fuel with
  | zero => omega
  | succ fuel ih =>
    intro n hn
    simp only [natDigitsAux]
    split
    · rename_i hd
      obtain ⟨h1, h2, h3, h4⟩ := digitChar_spec hd
      refine ⟨by simp, by simp [h1], ?_,
        by simp only [List.mem_singleton]; exact fun h => h3 h.symm,
        by simp only [List.mem_singleton]; exact fun h => h4 h.symm⟩
      simp [decValue, decStep, h2]
    · rename_i hd
      have hdiv : n / 10 < fuel := by
        have h10 : 10 ≤ n := Nat.le_of_not_lt hd
        have : n / 10 < n := Nat.div_lt_self (by omega) (by omega)
        omega
      obtain ⟨ih1, ih2, ih3, ih4, ih5⟩ := ih (n / 10) hdiv
      obtain ⟨h1, h2, h3, h4⟩ := digitChar_spec (Nat.mod_lt n (by omega : 0 < 10))
      refine ⟨by simp, ?_, ?_, ?_, ?_⟩
      · simp only [List.all_append, ih2, Bool.true_and, List.all_cons, List.all_nil,
          Bool.and_true, h1]
      · rw [decValue_append_digit, ih3, h2]
        omega
      · simp only [List.mem_append, List.mem_singleton]
        rintro (hmem | hmem)
        · exact ih4 hmem
        · exact h3 hmem.symm
      · simp only [List.mem_append, List.mem_singleton]
        rintro (hmem | hmem)
        · exact ih5 hmem
        · exact h4 hmem.symm

theorem natDigits_spec (n : Nat) :
    natDigits n ≠ [] ∧ (natDigits n).all Char.isDigit = true ∧
      decValue (natDigits n) = n ∧ ':' ∉ natDigits n ∧ '/' ∉ natDigits n :=
  natDigitsAux_spec (n + 1) n (Nat.lt_succ_self n)

theorem parseU16_natDigits {n : Nat} (h : n < 65536) :
    parseU16 (natDigits n) = some n := by
  obtain ⟨h1, h2, h3, -, -⟩ := natDigits_spec n
  rw [parseU16, if_pos ⟨h1, h2, by rw [h3]; exact h⟩, h3]

theorem parseU16_bound {s : Str} {p : Nat} (h : parseU16 s = some p) : p < 65536 := by
  unfold parseU16 at h
  split at h
  · rename_i hc
    cases h
    exact hc.2.2
  · cases h

theorem fromStrAux_web_shape {fuel : Nat} {s : Str} {u : WebUrl}
    (h : Url.fromStrAux fuel s = .ok (.web u)) : u.parsedShape := by
  match fuel with
  | 0 => simp [Url.fromStrAux] at h
  | fuel + 1 =>
    simp only [Url.fromStrAux] at h
    repeat' split at h
    all_goals cases h
    · rename_i hslash scheme hfs hda hvs hab x1 l r hhost x0 port hport
      obtain ⟨hmEq, hmNot⟩ := splitOnce_sound hhost
      obtain ⟨-, hslashNot⟩ := splitOnce_sound hslash
      refine ⟨Or.inl rfl, hmNot, ?_, ⟨_, rfl⟩, parseU16_bound hport⟩
      intro hmem
      exact hslashNot (hmEq ▸ List.mem_append_left _ hmem)
    · rename_i hslash scheme hfs hda hvs hab x0 hhost
      obtain ⟨-, hslashNot⟩ := splitOnce_sound hslash
      refine ⟨Or.inl rfl, splitOnce_none hhost, hslashNot, ⟨_, rfl⟩, ?_⟩
      show Scheme.http.defaultPort.getD 0 < 65536
      decide
    · rename_i hslash scheme hfs hda hvs hab x1 l r hhost x0 port hport
      obtain ⟨hmEq, hmNot⟩ := splitOnce_sound hhost
      obtain ⟨-, hslashNot⟩ := splitOnce_sound hslash
      refine ⟨Or.inr rfl, hmNot, ?_, ⟨_, rfl⟩, parseU16_bound hport⟩
      intro hmem
      exact hslashNot (hmEq ▸ List.mem_append_left _ hmem)
    · rename_i hslash scheme hfs hda hvs hab x0 hhost
      obtain ⟨-, hslashNot⟩ := splitOnce_sound hslash
      refine ⟨Or.inr rfl, splitOnce_none hhost, hslashNot, ⟨_, rfl⟩, ?_⟩
      show Scheme.https.defaultPort.getD 0 < 65536
      decide

theorem notMem_hostPart {host dig : Str} (hhs : '/' ∉ host) (digS : '/' ∉ dig) :
    '/' ∉ host ++ ':' :: dig := by
  simp only [List.mem_append, List.mem_cons]
  rintro (h | h | h)
  · exact hhs h
  · exact absurd h (by decide)
  · exact digS h

theorem fromStr_display {u : WebUrl} (h : u.parsedShape) :
    Url.fromStr u.display = .ok (.web u) := by
  obtain ⟨hsch, hhc, hhs, ⟨p, hpath⟩, hport⟩ := h
  obtain ⟨-, -, -, digC, digS⟩ := natDigits_spec u.port
  rcases hsch with hs | hs
  · have hdisp : u.display = Scheme.display .http ++
        ':' :: ('/' :: '/' :: (u.host ++ ':' :: (natDigits u.port ++ u.path))) := by
      rw [WebUrl.display, hs]
      have hlit : toStr "://" = [':', '/', '/'] := rfl
      rw [hlit]
      simp
    have e1 : splitOnce ':' (Scheme.display .http ++
        ':' :: ('/' :: '/' :: (u.host ++ ':' :: (natDigits u.port ++ u.path)))) =
        some (Scheme.display .http,
          '/' :: '/' :: (u.host ++ ':' :: (natDigits u.port ++ u.path))) :=
      splitOnce_complete (by decide)
    have hZ : u.host ++ ':' :: (natDigits u.port ++ u.path) =
        (u.host ++ ':' :: natDigits u.port) ++ '/' :: p := by
      rw [hpath]; simp
    have e2 : splitOnce '/' (u.host ++ ':' :: (natDigits u.port ++ u.path)) =
        some (u.host ++ ':' :: natDigits u.port, p) := by
      rw [hZ]
      exact splitOnce_complete (notMem_hostPart hhs digS)
    have e3 : splitOnce ':' (u.host ++ ':' :: natDigits u.port) =
        some (u.host, natDigits u.port) := splitOnce_complete hhc
    have e4 : strContains (u.host ++ ':' :: (natDigits u.port ++ u.path)) '/' = true := by
      simp only [strContains, List.contains, List.elem_iff]
      exact List.mem_append_right _ (by simp [hpath])
    rw [hdisp, Url.fromStr]
    simp only [Url.fromStrAux, e1]
    have hfsh : Scheme.fromStr (Scheme.display .http) = .ok .http := rfl
    simp only [hfsh]
    simp only [show (Scheme.http = Scheme.data) = False by simp,
      show (Scheme.http = Scheme.viewSource) = False by simp,
      show (Scheme.http = Scheme.about) = False by simp, if_false]
    simp only [dropSlashes, e4, if_true, e2, e3, parseU16_natDigits hport]
    rw [← hpath, ← hs]
  · have hdisp : u.display = Scheme.display .https ++
        ':' :: ('/' :: '/' :: (u.host ++ ':' :: (natDigits u.port ++ u.path))) := by
      rw [WebUrl.display, hs]
      have hlit : toStr "://" = [':', '/', '/'] := rfl
      rw [hlit]
      simp
    have e1 : splitOnce ':' (Scheme.display .https ++
        ':' :: ('/' :: '/' :: (u.host ++ ':' :: (natDigits u.port ++ u.path)))) =
        some (Scheme.display .https,
          '/' :: '/' :: (u.host ++ ':' :: (natDigits u.port ++ u.path))) :=
      splitOnce_complete (by decide)
    have hZ : u.host ++ ':' :: (natDigits u.port ++ u.path) =
        (u.host ++ ':' :: natDigits u.port) ++ '/' :: p := by
      rw [hpath]; simp
    have e2 : splitOnce '/' (u.host ++ ':' :: (natDigits u.port ++ u.path)) =
        some (u.host ++ ':' :: natDigits u.port, p) := by
      rw [hZ]
      exact splitOnce_complete (notMem_hostPart hhs digS)
    have e3 : splitOnce ':' (u.host ++ ':' :: natDigits u.port) =
        some (u.host, natDigits u.port) := splitOnce_complete hhc
    have e4 : strContains (u.host ++ ':' :: (natDigits u.port ++ u.path)) '/' = true := by
      simp only [strContains, List.contains, List.elem_iff]
      exact List.mem_append_right _ (by simp [hpath])
    rw [hdisp, Url.fromStr]
    simp only [Url.fromStrAux, e1]
    have hfsh : Scheme.fromStr (Scheme.display .https) = .ok .https := rfl
    simp only [hfsh]
    simp only [show (Scheme.https = Scheme.data) = False by simp,
      show (Scheme.https = Scheme.viewSource) = False by simp,
      show (Scheme.https = Scheme.about) = False by simp, if_false]
    simp only [dropSlashes, e4, if_true, e2, e3, parseU16_natDigits hport]
    rw [← hpath, ← hs]

/-- C3: for every Web URL `u` obtained by parsing a URL string,
`u.with_path(u.path)` equals `u` (same scheme, host, path, port), and
parsing the `Display` form of `u` yields `.ok (Url::Web u)` again. -/
theorem c3_weburl_roundtrip {s : Str} {u : WebUrl}
    (h : Url.fromStr s = .ok (.web u)) :
    u.withPath u.path = u ∧ Url.fromStr u.display = .ok (.web u) :=
  ⟨rfl, fromStr_display (fromStrAux_web_shape h)⟩

/-- Witness for C3 at the concrete input `"http://example.org"`. -/
theorem c3_weburl_roundtrip_witness :
    Url.fromStr (toStr "http://example.org") =
      .ok (.web ⟨.http, toStr "example.org", toStr "/", 80⟩) ∧
    (WebUrl.withPath ⟨.http, toStr "example.org", toStr "/", 80⟩
        (toStr "/") = ⟨.http, toStr "example.org", toStr "/", 80⟩ ∧
      Url.fromStr (WebUrl.display ⟨.http, toStr "example.org", toStr "/", 80⟩) =
        .ok (.web ⟨.http, toStr "example.org", toStr "/", 80⟩)) :=
  ⟨by decide,
    @c3_weburl_roundtrip (toStr "http://example.org")
      ⟨.http, toStr "example.org", toStr "/", 80⟩ (by decide)⟩

theorem lookup_addToEntry (m : List (Str × List Str)) (key : Str) (values : List Str) :
    lookupEntry (addToEntry m key values) key =
      some ((match lookupEntry m key with | some vs => vs | none => []) ++ values) := by
  induction m with
  | nil => simp [addToEntry, lookupEntry]
  | cons p rest ih =>
    obtain ⟨k, vs⟩ := p
    by_cases hk : k = key
    · simp [addToEntry, lookupEntry, hk]
    · simp [addToEntry, lookupEntry, hk, ih]

/-- C7 (amended): `Headers::add` lowercases the name, so a later `get` with
the lowercased form of the name returns a value list containing the added
value verbatim (value casing preserved).  `Headers::get` itself performs no
normalization. -/
theorem c7_header_lookup_after_add (h : Headers) (name value : Str)
    (hv : value ≠ []) :
    ∃ vs, (h.add name value).get (lowerStr name) = some vs ∧ value ∈ vs := by
  have hfilter : [value].filter (fun v => !v.isEmpty) = [value] := by
    cases value with
    | nil => exact absurd rfl hv
    | cons c cs => simp [List.filter, List.isEmpty]
  refine ⟨(match lookupEntry h.headers (lowerStr name) with
    | some vs => vs | none => []) ++ [value], ?_, by simp⟩
  show lookupEntry (addToEntry h.headers (lowerStr name)
      ([value].filter (fun v => !v.isEmpty))) (lowerStr name) = _
  rw [hfilter, lookup_addToEntry]

/-- Witness for C7's amended theorem at the spec's own example:
adding `Content-Length: 5` and reading back `content-length`. -/
theorem c7_header_lookup_after_add_witness :
    toStr "5" ≠ [] ∧
      ∃ vs, (Headers.add ⟨[]⟩ (toStr "Content-Length") (toStr "5")).get
          (lowerStr (toStr "Content-Length")) = some vs ∧ toStr "5" ∈ vs :=
  ⟨by decide, c7_header_lookup_after_add ⟨[]⟩ (toStr "Content-Length") (toStr "5") (by decide)⟩

/-- C7 counterexample: the claim promises case-insensitive lookups in both
directions, but `Headers::get` is a verbatim map lookup; after adding the
name in lowercase, a mixed-case `get` misses. -/
theorem c7_header_mixedcase_get_counterexample :
    (Headers.add ⟨[]⟩ (toStr "a") (toStr "v")).get (toStr "A") = none := by decide

theorem cacheLookup_mem {l : List (WebUrl × CacheEntry)} {u : WebUrl} {e : CacheEntry}
    (h : cacheLookup l u = some e) : (u, e) ∈ l := by
  induction l with
  | nil => simp [cacheLookup] at h
  | cons p rest ih =>
    obtain ⟨k, v⟩ := p
    by_cases hk : k = u
    · subst hk
      simp [cacheLookup] at h
      simp [h]
    · simp [cacheLookup, hk] at h
      exact List.mem_cons_of_mem _ (ih h)

theorem heapLookup_filter_ne (l : List (Nat × Response)) (id : Nat) :
    heapLookup (l.filter (fun p => p.1 != id)) id = none := by
  induction l with
  | nil => rfl
  | cons p rest ih =>
    obtain ⟨i, r⟩ := p
    by_cases hi : i = id
    · have hb : (i != id) = false := by simpa [bne_eq_false_iff_eq] using hi
      simp [List.filter, hb, ih]
    · have hb : (i != id) = true := by simpa [bne_iff_ne] using hi
      simp [List.filter, hb, heapLookup, hi, ih]

/-- C5: `Cache::get` hands out an upgradable handle exactly when the URL has
an entry with `now − date < max_age` holding strictly (timestamps compared
as the absolute instants their offsets denote); for a stale entry or an
absent URL the returned handle yields no response. -/
theorem c5_cache_freshness (s : CacheState) (url : WebUrl) (now : Int)
    (hwf : s.wf = true) :
    (∀ e, cacheLookup s.entries url = some e →
      ((now - e.date < e.maxAge →
          ∃ r, (Cache.get s url now).upgrade s = some r) ∧
        (¬(now - e.date < e.maxAge) →
          (Cache.get s url now).upgrade s = none))) ∧
    (cacheLookup s.entries url = none →
      (Cache.get s url now).upgrade s = none) := by
  constructor
  · intro e he
    constructor
    · intro hfresh
      have hmem := cacheLookup_mem he
      have hsome := (List.all_eq_true.mp hwf) _ hmem
      obtain ⟨r, hr⟩ := Option.isSome_iff_exists.mp (by simpa using hsome)
      exact ⟨r, by simp [Cache.get, he, if_pos hfresh, MaybeCachedResponse.upgrade, hr]⟩
    · intro hstale
      simp [Cache.get, he, if_neg hstale, MaybeCachedResponse.upgrade]
  · intro he
    simp [Cache.get, he, MaybeCachedResponse.upgrade]

/-- Witness for C5: a strictly fresh entry (now = 5, issued at 0 with
max-age 10) upgrades to a response. -/
theorem c5_cache_freshness_witness :
    CacheState.wf sampleCache = true ∧
      ∃ r, (Cache.get sampleCache sampleUrl 5).upgrade sampleCache = some r :=
  ⟨by decide,
    ((c5_cache_freshness sampleCache sampleUrl 5 (by decide)).1 sampleEntry
      (by decide)).1 (by decide)⟩

/-- C9: removing the strong map entry spoils every outstanding weak handle:
after `Cache::remove(url)` drops the map's `Arc`, any handle carrying that
entry's identifier upgrades to `None`, which callers observe as a miss. -/
theorem c9_cache_weak_handles (s : CacheState) (url : WebUrl) (e : CacheEntry)
    (m : MaybeCachedResponse) (he : cacheLookup s.entries url = some e)
    (hm : m.inner = some e.respId) :
    m.upgrade (Cache.remove s url).2 = none := by
  simp [Cache.remove, he, MaybeCachedResponse.upgrade, hm, heapLookup_filter_ne]

/-- Witness for C9: the handle for `sampleCache`'s only entry upgrades to
`None` after the entry is removed. -/
theorem c9_cache_weak_handles_witness :
    MaybeCachedResponse.upgrade ⟨some 0⟩ (Cache.remove sampleCache sampleUrl).2 = none :=
  c9_cache_weak_handles sampleCache sampleUrl sampleEntry ⟨some 0⟩ (by decide) (by decide)

/-- C6: `Cache::insert` succeeds exactly when the response carries a single
`date` header the rfc2822 parser accepts and a single `cache-control`
header of the exact form `max-age=<seconds>` whose value fits a signed
`TimeDelta`; on any failure the returned state is the unmodified cache. -/
theorem c6_cache_insert (parseDate : Str → Option Int) (s : CacheState)
    (url : WebUrl) (r : Response) :
    ((Cache.insert parseDate s url r).1 = .ok () ↔
      ((∃ ds d, r.headers.getSingleValue (toStr "date") = some (.ok ds) ∧
          parseDate ds = some d) ∧
        (∃ cc rest n,
          r.headers.getSingleValue (toStr "cache-control") = some (.ok cc) ∧
          dropPre (toStr "max-age=") cc = some rest ∧ parseU64 rest = some n ∧
          n ≤ maxTimeDeltaSeconds))) ∧
    (∀ e, (Cache.insert parseDate s url r).1 = .error e →
      (Cache.insert parseDate s url r).2 = s) := by
  unfold Cache.insert parseCacheProperties
  cases hd : r.headers.getSingleValue (toStr "date") with
  | none => simp [hd]
  | some x =>
    cases x with
    | error err =>
      cases err with
      | notOneValue n => simp [hd]
    | ok ds =>
      cases hpd : parseDate ds with
      | none => simp [hd, hpd]
      | some date =>
        cases hcc : r.headers.getSingleValue (toStr "cache-control") with
        | none => simp [hd, hpd, hcc]
        | some y =>
          cases y with
          | error err2 => simp [hd, hpd, hcc]
          | ok cc =>
            cases hdp : dropPre (toStr "max-age=") cc with
            | none => simp [hd, hpd, hcc, hdp]
            | some rest =>
              cases hp64 : parseU64 rest with
              | none => simp [hd, hpd, hcc, hdp, hp64]
              | some n =>
                by_cases hle : n ≤ maxTimeDeltaSeconds
                · simp [hd, hpd, hcc, hdp, hp64, hle]
                · simp [hd, hpd, hcc, hdp, hp64, hle]

/-- Witness for C6: a response with `date: d` (accepted by the sample
parser) and `cache-control: max-age=60` inserts successfully. -/
theorem c6_cache_insert_witness :
    (Cache.insert sampleParseDate sampleCache sampleUrl sampleCacheableResponse).1 =
      .ok () :=
  (c6_cache_insert sampleParseDate sampleCache sampleUrl sampleCacheableResponse).1.mpr
    ⟨⟨toStr "d", 0, by decide, by decide⟩,
      ⟨toStr "max-age=60", toStr "60", 60, by decide, by decide, by decide, by decide⟩⟩

theorem lexLoop_state_one :
    ∀ fuel acc, lexAux loopInput true fuel 1 false true acc = none := by
  intro fuel
  induction fuel using Nat.strong_induction_on with
  | _ fuel ih =>
    match fuel with
    | 0 => intro acc; rfl
    | 1 => intro acc; rfl
    | f + 2 => intro acc; exact ih f (by omega) (acc ++ ['&'])

/-- C10: `lex` is not total.  On `"&é;"` (graphemes `&`, `é`, `;`) the
unknown-entity rewind subtracts the entity's byte length 4 from the
grapheme cursor 3, underflowing the `usize` index: a debug-build panic
(in release the index wraps past the end and the input text is silently
dropped).  On `"x&&é;"` the rewind lands before an earlier `&` and the
cursor cycles between positions 1 and 2 forever: the loop terminates for
no fuel bound at all. -/
theorem c10_lex_not_total :
    lexRun panicInput true = some .panic ∧
    ∀ fuel, lexAux loopInput true fuel 0 false false [] = none := by
  refine ⟨by decide, ?_⟩
  intro fuel
  match fuel with
  | 0 => rfl
  | 1 => rfl
  | 2 => rfl
  | 3 => rfl
  | 4 => rfl
  | f + 5 => exact lexLoop_state_one f (toStr "xx&")

/-- C8 counterexample: the claimed universal "every other `&`-initiated
sequence passes through verbatim as literal text" fails on the code.  On
`"&é;"` the unknown-entity rewind underflows and `lex` panics instead of
passing the sequence through; and on the pure-ASCII `"&a<b;"` the re-read
candidate is re-interpreted as markup under `render = true`, yielding
`"&a"`, not the verbatim text. -/
theorem c8_passthrough_counterexample :
    lexRun panicInput true ≠ some (.ok (toStr "&é;")) ∧
    lexRun panicInput true = some .panic ∧
    lexRun (asciiGraphemes "&a<b;") true ≠ some (.ok (toStr "&a<b;")) ∧
    lexRun (asciiGraphemes "&a<b;") true = some (.ok (toStr "&a")) :=
  ⟨by decide, by decide, by decide, by decide⟩

/-- C8 (amended): the tokenizer's entity table decodes exactly `&lt;` (to
`<`) and `&gt;` (to `>`).  An unrecognized `&`-initiated sequence is left
undecoded: whenever the scanned entity candidate is pure ASCII (its byte
length equals the number of graphemes consumed, `i2 − i`), the rewind
lands exactly back on the `&` with `skip_entity` set, so the candidate's
graphemes flow through the normal pass — they appear as literal text
exactly as that pass would emit them.  On the spec's examples,
`lex("&lt;div&gt;", render=true)` yields the single text `"<div>"` (the
decoded `<` opens no tag) and `lex("&potato;div&chips;", render=true)`
passes the input through verbatim. -/
theorem c8_entities_amended (e : Str) (c : Char) :
    (parseEntity e = some c ↔
      (e = toStr "&lt;" ∧ c = '<') ∨ (e = toStr "&gt;" ∧ c = '>')) ∧
    (∀ (gs : List Str) (render : Bool) (fuel i i2 : Nat) (inTag : Bool)
        (acc entity : Str),
      gs.get? i = some ['&'] →
      entityScan gs (gs.length + 1) (i + 1) ['&'] = (entity, i2) →
      parseEntity entity = none →
      byteLen entity = i2 - i → i ≤ i2 →
      lexAux gs render (fuel + 1) i inTag false acc =
        lexAux gs render fuel i inTag true acc) ∧
    lexRun (asciiGraphemes "&lt;div&gt;") true = some (.ok (toStr "<div>")) ∧
    lexRun (asciiGraphemes "&potato;div&chips;") true =
      some (.ok (toStr "&potato;div&chips;")) := by
  refine ⟨?_, ?_, by decide, by decide⟩
  · unfold parseEntity
    split_ifs with h1 h2
    · constructor
      · intro h
        exact Or.inl ⟨h1, (Option.some.inj h).symm⟩
      · rintro (⟨-, rfl⟩ | ⟨hc, -⟩)
        · rfl
        · exact absurd (h1 ▸ hc) (by decide)
    · constructor
      · intro h
        exact Or.inr ⟨h2, (Option.some.inj h).symm⟩
      · rintro (⟨hc, -⟩ | ⟨-, rfl⟩)
        · exact absurd (h2 ▸ hc) (by decide)
        · rfl
    · constructor
      · intro h
        exact absurd h (by simp)
      · rintro (⟨hc, -⟩ | ⟨hc, -⟩)
        · exact absurd hc h1
        · exact absurd hc h2
  · intro gs render fuel i i2 inTag acc entity hget hscan hpe hb hle
    simp only [lexAux, hget, if_true, Bool.false_eq_true, if_false, hscan, hpe]
    rw [if_neg (by omega)]
    congr 1
    omega

/-- Witness for C8's amended theorem: the entity table at `&lt;`, and the
ASCII rewind at the `&potato;` scan of the spec's own example (entity of
byte length 8 scanned from cursor 0 up to cursor 8; the rewind returns to
0 with `skip_entity` set). -/
theorem c8_entities_amended_witness :
    parseEntity (toStr "&lt;") = some '<' ∧
    lexAux (asciiGraphemes "&potato;div&chips;") true (50 + 1) 0 false false [] =
      lexAux (asciiGraphemes "&potato;div&chips;") true 50 0 false true [] :=
  ⟨(c8_entities_amended (toStr "&lt;") '<').1.mpr (Or.inl ⟨rfl, rfl⟩),
    (c8_entities_amended (toStr "&lt;") '<').2.1
      (asciiGraphemes "&potato;div&chips;") true 50 0 8 false [] (toStr "&potato;")
      (by decide) (by decide) (by decide) (by decide) (by decide)⟩

theorem redirectLoop_all3xx (server : WebUrl → Response) (origUrl : WebUrl)
    (hall : ∀ u, (300 ≤ (server u).statusCode ∧ (server u).statusCode < 400) ∧
      ∃ loc vs, (server u).headers.get (toStr "location") = some (loc :: vs) ∧
        startsWithSlash loc = true) :
    ∀ budget u, ∃ u2, redirectLoop server origUrl budget (server u) = .ok (server u2) := by
  intro budget
  induction budget with
  | zero => exact fun u => ⟨u, rfl⟩
  | succ b ih =>
    intro u
    obtain ⟨⟨h3a, h3b⟩, loc, vs, hloc, hslash⟩ := hall u
    obtain ⟨u2, hu2⟩ := ih (origUrl.withPath loc)
    refine ⟨u2, ?_⟩
    simp only [redirectLoop, if_pos (And.intro h3a h3b), hloc, hslash, if_true,
      Url.asWebUrl, hu2]

/-- C4: the engine follows at most `MAX_REDIRECTS = 5` redirects.  When
every response the origin returns is 3xx with a usable relative `Location`,
`load_web_url` fails with `Redirect("Too many redirects.")`; and a 3xx
response carrying no `Location` header fails with a `Redirect` error whose
message names the missing `Location`. -/
theorem c4_redirect_cap (server : WebUrl → Response) (url : WebUrl) :
    ((∀ u, (300 ≤ (server u).statusCode ∧ (server u).statusCode < 400) ∧
        ∃ loc vs, (server u).headers.get (toStr "location") = some (loc :: vs) ∧
          startsWithSlash loc = true) →
      loadWebUrl server url = .error (.redirect (toStr "Too many redirects."))) ∧
    ((300 ≤ (server url).statusCode ∧ (server url).statusCode < 400) →
      (server url).headers.get (toStr "location") = none →
      loadWebUrl server url =
        .error (.redirect (toStr "Missing Location header in response: " ++
          headersRepr (server url).headers))) := by
  constructor
  · intro hall
    obtain ⟨u2, hu2⟩ := redirectLoop_all3xx server url hall MAX_REDIRECTS url
    have h3 := (hall u2).1
    simp only [loadWebUrl, hu2, if_pos h3]
  · intro h3 hnone
    simp only [loadWebUrl, MAX_REDIRECTS, redirectLoop, if_pos h3, hnone]

/-- Witness for C4: against an origin that always answers `301` with
`Location: /a`, the load fails with "Too many redirects."; against one that
answers a bare `301`, it fails with the missing-`Location` message. -/
theorem c4_redirect_cap_witness :
    loadWebUrl redirectingServer sampleUrl =
      .error (.redirect (toStr "Too many redirects.")) ∧
    loadWebUrl missingLocServer sampleUrl =
      .error (.redirect (toStr "Missing Location header in response: " ++
        headersRepr (missingLocServer sampleUrl).headers)) :=
  ⟨(c4_redirect_cap redirectingServer sampleUrl).1
      (fun _ => ⟨⟨of_decide_eq_true rfl, of_decide_eq_true rfl⟩,
        toStr "/a", [], rfl, rfl⟩),
    (c4_redirect_cap missingLocServer sampleUrl).2
      ⟨of_decide_eq_true rfl, of_decide_eq_true rfl⟩ rfl⟩

/-- C1: for every input string that fails to parse as a URL,
`Engine::load` does not return the parse error; it substitutes
`about:blank` and returns that page's result, a single empty `Text`
token. -/
theorem c1_load_parse_failure (L : Loaders) (s : Str) (e : UrlError)
    (h : Url.fromStr s = .error e) :
    Engine.load L s = .ok (some [Token.text []]) := by
  simp [Engine.load, h, loadUrl]

/-- Witness for C1 at the unparseable input `"notaurl"` (no `:` to split
on). -/
theorem c1_load_parse_failure_witness :
    Url.fromStr (toStr "notaurl") = .error (.split (toStr "notaurl")) ∧
    Engine.load trivialLoaders (toStr "notaurl") = .ok (some [Token.text []]) :=
  ⟨by decide,
    c1_load_parse_failure trivialLoaders (toStr "notaurl")
      (.split (toStr "notaurl")) (by decide)⟩

theorem hexDigitChar_spec {d : Nat} (h : d < 16) :
    isHexChar (hexDigitChar d) = true ∧ hexCharVal (hexDigitChar d) = d ∧
      hexDigitChar d ≠ '\r' := by
  interval_cases d <;> exact ⟨by decide, by decide, by decide⟩

theorem hexValue_append_digit (xs : Str) (c : Char) :
    hexValue (xs ++ [c]) = hexValue xs * 16 + hexCharVal c := by
  simp [hexValue, List.foldl_append]

theorem natHexAux_spec :
    ∀ fuel n, n < fuel →
      natHexAux fuel n ≠ [] ∧ (natHexAux fuel n).all isHexChar = true ∧
        hexValue (natHexAux fuel n) = n ∧ '\r' ∉ natHexAux fuel n := by
  intro fuel
  induction fuel with
  | zero => omega
  | succ fuel ih =>
    intro n hn
    simp only [natHexAux]
    split
    · rename_i hd
      obtain ⟨h1, h2, h3⟩ := hexDigitChar_spec hd
      refine ⟨by simp, by simp [h1], by simp [hexValue, h2],
        by simp only [List.mem_singleton]; exact fun h => h3 h.symm⟩
    · rename_i hd
      have hdiv : n / 16 < fuel := by
        have h16 : 16 ≤ n := Nat.le_of_not_lt hd
        have : n / 16 < n := Nat.div_lt_self (by omega) (by omega)
        omega
      obtain ⟨ih1, ih2, ih3, ih4⟩ := ih (n / 16) hdiv
      obtain ⟨h1, h2, h3⟩ := hexDigitChar_spec (Nat.mod_lt n (by omega : 0 < 16))
      refine ⟨by simp, ?_, ?_, ?_⟩
      · simp only [List.all_append, ih2, Bool.true_and, List.all_cons, List.all_nil,
          Bool.and_true, h1]
      · rw [hexValue_append_digit, ih3, h2]
        omega
      · simp only [List.mem_append, List.mem_singleton]
        rintro (hmem | hmem)
        · exact ih4 hmem
        · exact h3 hmem.symm

theorem natHex_spec (n : Nat) :
    natHex n ≠ [] ∧ (natHex n).all isHexChar = true ∧ hexValue (natHex n) = n ∧
      '\r' ∉ natHex n :=
  natHexAux_spec (n + 1) n (Nat.lt_succ_self n)

theorem takeWhile_append_stop {p : Char → Bool} {xs : Str} {y : Char} (ys : Str)
    (hall : xs.all p = true) (hy : p y = false) :
    (xs ++ y :: ys).takeWhile p = xs ∧ (xs ++ y :: ys).dropWhile p = y :: ys := by
  induction xs with
  | nil => simp [List.takeWhile, List.dropWhile, hy]
  | cons x rest ih =>
    simp only [List.all_cons, Bool.and_eq_true] at hall
    obtain ⟨hx, hrest⟩ := hall
    obtain ⟨iht, ihd⟩ := ih hrest
    simp [List.takeWhile, List.dropWhile, hx, iht, ihd]

theorem parseHexLine_encode (m : Nat) (rest : Str) :
    parseHexLine (natHex m ++ '\r' :: '\n' :: rest) = some (m, rest) := by
  obtain ⟨hne, hall, hval, -⟩ := natHex_spec m
  have hy : isHexChar '\r' = false := by decide
  obtain ⟨ht, hd⟩ := takeWhile_append_stop ('\n' :: rest) hall hy
  unfold parseHexLine
  simp only [ht, hd]
  match hm : natHex m with
  | [] => exact absurd hm hne
  | c :: cs =>
    show some (hexValue (c :: cs), rest) = some (m, rest)
    rw [← hm, hval]

theorem encodeChunks_length_ge (chunks : List Str) :
    chunks.length ≤ (encodeChunks chunks).length := by
  induction chunks with
  | nil => simp [encodeChunks]
  | cons c cs ih =>
    simp only [encodeChunks, List.length_append, List.length_cons]
    omega

theorem readChunks_encode :
    ∀ (chunks : List Str) (fuel : Nat), chunks.length < fuel →
      (∀ c ∈ chunks, c ≠ []) →
      readChunks fuel (encodeChunks chunks) =
        some (chunks.foldr (fun a b => a ++ b) []) := by
  intro chunks
  induction chunks with
  | nil =>
    intro fuel hf _
    match fuel, hf with
    | f + 1, _ => rfl
  | cons c cs ih =>
    intro fuel hf hne
    match fuel, hf with
    | f + 1, hff =>
      have hc : c ≠ [] := hne c (List.mem_cons_self c cs)
      have hclen : 0 < c.length := List.length_pos.mpr hc
      simp only [encodeChunks, readChunks, parseHexLine_encode]
      have hn0 : ¬(c.length = 0) := by omega
      rw [if_neg hn0]
      have hlen : ¬((c ++ '\r' :: '\n' :: encodeChunks cs).length < c.length) := by
        simp only [List.length_append, List.length_cons]
        omega
      rw [if_neg hlen]
      have hdrop : (c ++ '\r' :: '\n' :: encodeChunks cs).drop c.length =
          '\r' :: '\n' :: encodeChunks cs := List.drop_left c _
      have htake : (c ++ '\r' :: '\n' :: encodeChunks cs).take c.length = c :=
        List.take_left c _
      rw [hdrop]
      have hrec : readChunks f (encodeChunks cs) =
          some (cs.foldr (fun a b => a ++ b) []) := by
        apply ih f (by simp only [List.length_cons] at hff; omega)
        exact fun x hx => hne x (List.mem_cons_of_mem c hx)
      simp only [hrec, htake]
      rfl

/-- C2: when `transfer-encoding` contains `chunked`, the body reader
decodes chunks — each beginning with a hex length line, reading that many
bytes and consuming the trailing CRLF, stopping at a zero length — and
this policy takes priority over `content-length`; on any well-formed
chunked stream the decoded body is the concatenation of the chunk
payloads. -/
theorem c2_chunked_body (headers : Headers) (stream : Str)
    (hchunked : headers.hasGivenValue (toStr "transfer-encoding")
      (toStr "chunked") = some true) :
    readBody headers stream = readChunks (stream.length + 1) stream ∧
    (∀ chunks : List Str, (∀ c ∈ chunks, c ≠ []) →
      readChunks ((encodeChunks chunks).length + 1) (encodeChunks chunks) =
        some (chunks.foldr (fun a b => a ++ b) [])) := by
  constructor
  · simp [readBody, hchunked]
  · intro chunks hne
    exact readChunks_encode chunks _
      (Nat.lt_succ_of_le (encodeChunks_length_ge chunks)) hne

/-- Witness for C2: headers with both `transfer-encoding: chunked` and
`content-length: 5` read the stream `"3\r\nabc\r\n0\r\n"` through the
chunk decoder, yielding `"abc"` (not 5 raw bytes). -/
theorem c2_chunked_body_witness :
    chunkedHeaders.hasGivenValue (toStr "transfer-encoding") (toStr "chunked") =
        some true ∧
      readBody chunkedHeaders (toStr "3\r\nabc\r\n0\r\n") =
        readChunks ((toStr "3\r\nabc\r\n0\r\n").length + 1) (toStr "3\r\nabc\r\n0\r\n") ∧
      readBody chunkedHeaders (toStr "3\r\nabc\r\n0\r\n") = some (toStr "abc") :=
  ⟨by decide,
    (c2_chunked_body chunkedHeaders (toStr "3\r\nabc\r\n0\r\n") (by decide)).1,
    by decide⟩
